import Mathlib

/-!
Shallow embedding of the splinterfs FUSE filesystem (src/splinterfs.cpp and
src/src/splinterfs.cpp) together with proofs checking the natural-language
specification against it.

Modelling conventions:
* C `int` arithmetic is modelled on `Int` with an explicit wrap to the
  signed 32-bit range (`wrap32`) at every point where the C code computes
  in `int` (products and narrowing conversions); `off_t` (64-bit) values
  stay plain `Int`.
* Paths and filenames are `List Char`.
* The source file is a pair of a content function `Nat → Nat` (byte at an
  absolute offset) and a size `srcSize : Int` (the `st_size` returned by a
  successful `stat`); operations that first `stat` the source are modelled
  under the assumption that the `stat` call succeeded, so `srcSize` is a
  parameter.
* Fallible operations return `Except Int α` where `.error e` stands for the
  C function returning `-e` (a negated errno value).
-/

/-- Split size constant from the source: `#define SPLIT_SIZE 100048576`. -/
def SPLIT_SIZE : Int := 100048576

/-- Maximum number of splits: `#define MAX_SPLITS 1000`. -/
def MAX_SPLITS : Int := 1000

/-- Errno value ENOENT (no such file or directory). -/
def ENOENT : Int := 2

/-- Errno value EACCES (permission denied). -/
def EACCES : Int := 13

/-- Errno value EINVAL (invalid argument), returned by `lseek` for a
negative target offset. -/
def EINVAL : Int := 22

/-- Wrap an unbounded integer to the signed 32-bit range, the behaviour of
C `int` arithmetic under wrap-around modulo `2^32`. -/
def wrap32 (n : Int) : Int := (n + 2 ^ 31) % 2 ^ 32 - 2 ^ 31

/-- Predicate of C `isspace` (the characters skipped by `strtol`/`%d`):
space and the codepoints 9..13. -/
def isSpace (c : Char) : Bool := c.toNat == 32 || (9 ≤ c.toNat && c.toNat ≤ 13)

/-- Predicate of C `isdigit`: codepoints 48..57. -/
def isDigit (c : Char) : Bool := 48 ≤ c.toNat && c.toNat ≤ 57

/-- Value of a (most-significant-first) list of decimal digit characters. -/
def natFromDigits (ds : List Char) : Nat :=
  ds.foldl (fun a c => 10 * a + (c.toNat - 48)) 0

/-- Digit-and-range part shared by `stoi`: take the leading run of digits,
fail if it is empty, apply the sign, and fail when the value lies outside
the `int` range (`std::stoi` raises `out_of_range` there). -/
def stoiCore (sign : Int) (s : List Char) : Option Int :=
  let ds := s.takeWhile isDigit
  if ds = [] then none
  else
    let v : Int := sign * (natFromDigits ds : Int)
    if v < -(2 ^ 31) ∨ 2 ^ 31 - 1 < v then none else some v

/-- Embedding of `std::stoi` as used on the numeric prefix: skip leading
whitespace, accept one optional sign character, then require at least one
digit; trailing non-digit characters are ignored. Returns `none` where the
C++ call throws (`invalid_argument` or `out_of_range`). -/
def stoi (s : List Char) : Option Int :=
  match s.dropWhile isSpace with
  | [] => none
  | c :: r =>
    if c == '-' then stoiCore (-1) r
    else if c == '+' then stoiCore 1 r
    else stoiCore 1 (c :: r)

/-- Embedding of `parse_split_path` from src/src/splinterfs.cpp: require a
leading slash, split the remainder at the first underscore (`p.find('_')`),
parse the prefix with `std::stoi`, and return the split number together
with everything after the first underscore. -/
def parse_split_path (path : List Char) : Option (Int × List Char) :=
  match path with
  | [] => none
  | c :: p =>
    if c == '/' then
      match p.dropWhile (fun x => x != '_') with
      | [] => none
      | _ :: base =>
        match stoi (p.takeWhile (fun x => x != '_')) with
        | some v => some (v, base)
        | none => none
    else none

/-- Continuation of the sscanf-format parse after the `%d` digits: the
input left after the digit run must start with the literal underscore of
the format, and `%[^\n]` must then match at least one character, stopping
at a newline. `sign` and `ds` carry the sign and digits matched by `%d`. -/
def scanfTail (sign : Int) (ds : List Char) (rest : List Char) :
    Option (Int × List Char) :=
  match rest with
  | [] => none
  | c2 :: r4 =>
    if c2 == '_' then
      if r4.takeWhile (fun x => x != '\n') = [] then none
      else some (sign * (natFromDigits ds : Int),
                 r4.takeWhile (fun x => x != '\n'))
    else none

/-- Embedding of the `sscanf(path, "/%d_%[^\n]", &split_num, filename)`
parse used by src/splinterfs.cpp: literal slash, then `%d` (optional
whitespace, optional sign, at least one digit), then a literal underscore
that must immediately follow the digits, then `%[^\n]` which must match at
least one character and stops at a newline. The parse counts as a success
only when both conversions are assigned. Values beyond the `int` range are
undefined behaviour in the source and are not range-checked here; the
claims avoid such inputs. -/
def scanfDecode (path : List Char) : Option (Int × List Char) :=
  match path with
  | [] => none
  | c :: rest =>
    if c == '/' then
      match rest.dropWhile isSpace with
      | [] => none
      | c1 :: r2 =>
        let sign : Int := if c1 == '-' then -1 else 1
        let body := if c1 == '-' || c1 == '+' then r2 else c1 :: r2
        if body.takeWhile isDigit = [] then none
        else scanfTail sign (body.takeWhile isDigit) (body.dropWhile isDigit)
    else none

/-- Decimal digit character for a digit value (used to model
`std::to_string` on a non-negative int). -/
def digitChar (d : Nat) : Char :=
  match d with
  | 0 => '0' | 1 => '1' | 2 => '2' | 3 => '3' | 4 => '4'
  | 5 => '5' | 6 => '6' | 7 => '7' | 8 => '8' | _ => '9'

/-- Decimal representation of a natural number, most significant digit
first, no padding, `"0"` for zero — the output of `std::to_string` on a
non-negative `int`. -/
def toDecimal (n : Nat) : List Char :=
  if _h : n < 10 then [digitChar n]
  else toDecimal (n / 10) ++ [digitChar (n % 10)]
decreasing_by exact Nat.div_lt_self (by omega) (by omega)

/-- Encoded directory-entry name produced by `read_dir`:
`std::to_string(i) + "_" + base_name`. -/
def encode (i : Nat) (name : List Char) : List Char :=
  toDecimal i ++ '_' :: name

/-- File-type bit for directories in `st_mode`. -/
def S_IFDIR : Nat := 0o40000

/-- File-type bit for regular files in `st_mode`. -/
def S_IFREG : Nat := 0o100000

/-- Result of a successful `getattr` call: the fields of `struct stat`
that the code fills in. -/
structure Stat where
  st_mode : Nat
  st_nlink : Nat
  st_size : Int
deriving DecidableEq, Repr

/-- Size computation of `get_attr` for a split file, faithful to
`(st.st_size > (split_num + 1) * SPLIT_SIZE) ? SPLIT_SIZE :
(st.st_size - split_num * SPLIT_SIZE)` where both products are computed in
32-bit `int` and then widened to `off_t` for the comparison and the
subtraction. -/
def getAttrSize (split_num srcSize : Int) : Int :=
  if srcSize > wrap32 ((split_num + 1) * SPLIT_SIZE) then SPLIT_SIZE
  else srcSize - wrap32 (split_num * SPLIT_SIZE)

/-- Embedding of `get_attr` (for the case where the `stat` of the source
file succeeds with size `srcSize`): the root gets directory attributes, a
path that parses gets regular-file attributes with the computed split
size, anything else is `-ENOENT`. -/
def get_attr (path : List Char) (srcSize : Int) : Except Int Stat :=
  if path = ['/'] then .ok ⟨S_IFDIR + 0o755, 2, 0⟩
  else
    match parse_split_path path with
    | some (split_num, _) => .ok ⟨S_IFREG + 0o444, 1, getAttrSize split_num srcSize⟩
    | none => .error ENOENT

/-- Split count as the specification defines it in section 3:
`ceil(source_size / split_size)` clamped to `max_splits`. -/
def specSplitCount (srcSize : Int) : Int :=
  min ((srcSize + SPLIT_SIZE - 1) / SPLIT_SIZE) MAX_SPLITS

/-- Number of splits as `read_dir` computes it:
`int num_splits = (st.st_size + SPLIT_SIZE - 1) / SPLIT_SIZE;` — the
division happens in 64-bit `off_t` (all operands non-negative, so
truncating and euclidean division agree) and the quotient is then narrowed
to 32-bit `int`. -/
def num_splits_int (srcSize : Int) : Int :=
  wrap32 ((srcSize + SPLIT_SIZE - 1) / SPLIT_SIZE)

/-- Split entry names produced by the `read_dir` loop
`for (int i = 0; i < num_splits && i < MAX_SPLITS; i++)`: the loop body
runs `max 0 (min num_splits MAX_SPLITS)` times. -/
def splitNames (srcSize : Int) (base : List Char) : List (List Char) :=
  (List.range (min (num_splits_int srcSize) MAX_SPLITS).toNat).map
    (fun i => encode i base)

/-- Embedding of `read_dir` (for the case where the `stat` of the source
succeeds): only the root directory exists; it lists `.`, `..`, then the
encoded split names. -/
def read_dir (path : List Char) (srcSize : Int) (base : List Char) :
    Except Int (List (List Char)) :=
  if path = ['/'] then .ok (['.'] :: ['.', '.'] :: splitNames srcSize base)
  else .error ENOENT

/-- Embedding of `open_file`: `-ENOENT` when the path does not parse,
`-EACCES` when `(fi->flags & O_ACCMODE) != O_RDONLY` (with
`O_ACCMODE = 3`, `O_RDONLY = 0`), and `0` (granted) otherwise. The
function takes no source-file parameter because the C code consults
neither the source size nor the split count. -/
def open_file (path : List Char) (flags : Nat) : Int :=
  match parse_split_path path with
  | none => -ENOENT
  | some _ => if Nat.land flags 3 != 0 then -EACCES else 0

/-- Positioned read against the source file (the POSIX `read` after an
`lseek` to `pos`): returns the bytes at offsets `pos, pos+1, ...`,
truncated at end of file — at most `min cap (srcSize - pos)` bytes, and
zero bytes when `pos` is at or past end of file. -/
def readPrim (f : Nat → Nat) (srcSize : Int) (pos : Nat) (cap : Nat) : List Nat :=
  (List.range (min cap (srcSize.toNat - pos))).map (fun j => f (pos + j))

/-- Embedding of `read_file` after a successful path parse and source
open: `off_t file_offset = split_num * SPLIT_SIZE + offset;` with the
product computed in 32-bit `int` and the addition in `off_t`; a negative
resulting offset makes `lseek` fail with `EINVAL`, otherwise the positioned
read happens at `file_offset`. -/
def read_file (f : Nat → Nat) (srcSize : Int) (split_num offset : Int)
    (cap : Nat) : Except Int (List Nat) :=
  let file_offset := wrap32 (split_num * SPLIT_SIZE) + offset
  if file_offset < 0 then .error EINVAL
  else .ok (readPrim f srcSize file_offset.toNat cap)

/-! Helper lemmas about `wrap32`, character classes, and list splitting. -/

/-- Lower bound of the wrapped 32-bit value. -/
theorem wrap32_lower (n : Int) : -(2 ^ 31) ≤ wrap32 n := by
  unfold wrap32
  omega

/-- Upper bound of the wrapped 32-bit value. -/
theorem wrap32_upper (n : Int) : wrap32 n < 2 ^ 31 := by
  unfold wrap32
  omega

/-- Wrapping is the identity on values already inside the signed 32-bit
range (only the non-negative half is needed here). -/
theorem wrap32_eq_self {n : Int} (h0 : 0 ≤ n) (h1 : n < 2 ^ 31) : wrap32 n = n := by
  unfold wrap32
  omega

/-- A list all of whose elements satisfy the predicate is its own
`takeWhile`. -/
theorem takeWhile_eq_self {α} (p : α → Bool) :
    ∀ l : List α, (∀ x ∈ l, p x = true) → l.takeWhile p = l := by
  intro l
  induction l with
  | nil => intro _; rfl
  | cons a t ih =>
    intro h
    rw [List.takeWhile_cons, h a (by simp)]
    simp [ih (fun x hx => h x (by simp [hx]))]

/-- A list none of whose elements satisfies the predicate is its own
`dropWhile`. -/
theorem dropWhile_eq_self {α} (p : α → Bool) :
    ∀ l : List α, (∀ x ∈ l, p x = false) → l.dropWhile p = l := by
  intro l
  induction l with
  | nil => intro _; rfl
  | cons a t _ =>
    intro h
    rw [List.dropWhile_cons, h a (by simp)]
    simp

/-- Taking while `p` holds stops exactly at the first failing element. -/
theorem takeWhile_append_cons {α} (p : α → Bool) (a : α) (ys : List α) :
    ∀ xs : List α, (∀ x ∈ xs, p x = true) → p a = false →
      (xs ++ a :: ys).takeWhile p = xs := by
  intro xs
  induction xs with
  | nil => intro _ ha; simp [List.takeWhile_cons, ha]
  | cons b t ih =>
    intro h ha
    rw [List.cons_append, List.takeWhile_cons, h b (by simp)]
    simp [ih (fun x hx => h x (by simp [hx])) ha]

/-- Dropping while `p` holds stops exactly at the first failing element. -/
theorem dropWhile_append_cons {α} (p : α → Bool) (a : α) (ys : List α) :
    ∀ xs : List α, (∀ x ∈ xs, p x = true) → p a = false →
      (xs ++ a :: ys).dropWhile p = a :: ys := by
  intro xs
  induction xs with
  | nil => intro _ ha; simp [List.dropWhile_cons, ha]
  | cons b t ih =>
    intro h ha
    rw [List.cons_append, List.dropWhile_cons, h b (by simp)]
    simpa using ih (fun x hx => h x (by simp [hx])) ha

/-- The head of a non-empty `dropWhile` result fails the predicate. -/
theorem dropWhile_head_false {α} (p : α → Bool) :
    ∀ (l : List α) (a : α) (t : List α), l.dropWhile p = a :: t → p a = false := by
  intro l
  induction l with
  | nil => intro a t h; exact absurd h (by simp)
  | cons b r ih =>
    intro a t h
    rw [List.dropWhile_cons] at h
    cases hb : p b
    · rw [hb] at h
      simp only [Bool.false_eq_true, if_false, List.cons.injEq] at h
      rw [← h.1]
      exact hb
    · rw [hb] at h
      simp only [if_true] at h
      exact ih a t h

/-- Unfolding of the digit predicate to arithmetic on the codepoint. -/
theorem isDigit_iff {c : Char} : isDigit c = true ↔ 48 ≤ c.toNat ∧ c.toNat ≤ 57 := by
  simp [isDigit]

/-- Unfolding of the space predicate to arithmetic on the codepoint. -/
theorem isSpace_iff {c : Char} :
    isSpace c = true ↔ c.toNat = 32 ∨ (9 ≤ c.toNat ∧ c.toNat ≤ 13) := by
  simp [isSpace]

/-- A digit character is not a space character. -/
theorem isDigit_not_space {c : Char} (h : isDigit c = true) : isSpace c = false := by
  cases hs : isSpace c
  · rfl
  · have h1 := isDigit_iff.mp h
    have h2 := isSpace_iff.mp hs
    omega

/-- A digit character differs from the underscore. -/
theorem isDigit_ne_underscore {c : Char} (h : isDigit c = true) : (c != '_') = true := by
  refine bne_iff_ne.mpr ?_
  intro he
  subst he
  exact absurd h (by decide)

/-- A digit character differs from the minus sign. -/
theorem isDigit_ne_minus {c : Char} (h : isDigit c = true) : (c == '-') = false := by
  refine beq_eq_false_iff_ne.mpr ?_
  intro he
  subst he
  exact absurd h (by decide)

/-- A digit character differs from the plus sign. -/
theorem isDigit_ne_plus {c : Char} (h : isDigit c = true) : (c == '+') = false := by
  refine beq_eq_false_iff_ne.mpr ?_
  intro he
  subst he
  exact absurd h (by decide)

/-- A space character differs from the underscore. -/
theorem isSpace_ne_underscore {c : Char} (h : isSpace c = true) : (c != '_') = true := by
  refine bne_iff_ne.mpr ?_
  intro he
  subst he
  exact absurd h (by decide)

/-! Round-trip lemmas for the decimal codec and `stoi`. -/

/-- Reduction of `parse_split_path` on a path with its leading slash. -/
theorem parse_split_path_cons (p : List Char) :
    parse_split_path ('/' :: p) =
      match p.dropWhile (fun x => x != '_') with
      | [] => none
      | _ :: base =>
        match stoi (p.takeWhile (fun x => x != '_')) with
        | some v => some (v, base)
        | none => none := by
  rfl

/-- Reduction of `stoi` once the whitespace-stripped input is known. -/
theorem stoi_eq (s : List Char) (c : Char) (r : List Char)
    (h : s.dropWhile isSpace = c :: r) :
    stoi s = if c == '-' then stoiCore (-1) r
             else if c == '+' then stoiCore 1 r else stoiCore 1 (c :: r) := by
  unfold stoi
  rw [h]

/-- Every digit character produced by `digitChar` satisfies `isDigit`. -/
theorem digitChar_isDigit (d : Nat) (h : d < 10) : isDigit (digitChar d) = true := by
  interval_cases d <;> decide

/-- Codepoint of the digit character of a digit value. -/
theorem digitChar_toNat (d : Nat) (h : d < 10) : (digitChar d).toNat = 48 + d := by
  interval_cases d <;> decide

/-- Every character of a decimal representation is a digit. -/
theorem toDecimal_digits : ∀ n : Nat, ∀ c ∈ toDecimal n, isDigit c = true := by
  intro n
  induction n using Nat.strong_induction_on with
  | _ n ih =>
    intro c hc
    rw [toDecimal] at hc
    by_cases h : n < 10
    · rw [dif_pos h] at hc
      simp only [List.mem_singleton] at hc
      subst hc
      exact digitChar_isDigit n h
    · rw [dif_neg h] at hc
      rw [List.mem_append] at hc
      rcases hc with hc | hc
      · exact ih (n / 10) (Nat.div_lt_self (by omega) (by omega)) c hc
      · simp only [List.mem_singleton] at hc
        subst hc
        exact digitChar_isDigit (n % 10) (Nat.mod_lt n (by omega))

/-- A decimal representation is never empty. -/
theorem toDecimal_ne_nil (n : Nat) : toDecimal n ≠ [] := by
  rw [toDecimal]
  by_cases h : n < 10
  · rw [dif_pos h]; simp
  · rw [dif_neg h]; simp

/-- Appending one digit multiplies the value by ten and adds the digit. -/
theorem natFromDigits_append_digit (xs : List Char) (c : Char) :
    natFromDigits (xs ++ [c]) = 10 * natFromDigits xs + (c.toNat - 48) := by
  unfold natFromDigits
  rw [List.foldl_append]
  rfl

/-- Reading back the decimal representation returns the original number. -/
theorem natFromDigits_toDecimal : ∀ n : Nat, natFromDigits (toDecimal n) = n := by
  intro n
  induction n using Nat.strong_induction_on with
  | _ n ih =>
    rw [toDecimal]
    by_cases h : n < 10
    · rw [dif_pos h]
      unfold natFromDigits
      rw [List.foldl_cons, List.foldl_nil, digitChar_toNat n h]
      omega
    · rw [dif_neg h]
      rw [natFromDigits_append_digit]
      rw [ih (n / 10) (Nat.div_lt_self (by omega) (by omega))]
      rw [digitChar_toNat (n % 10) (Nat.mod_lt n (by omega))]
      omega

/-- The decimal representation function is injective. -/
theorem toDecimal_injective : Function.Injective toDecimal := by
  intro a b h
  have := natFromDigits_toDecimal a
  rw [h, natFromDigits_toDecimal b] at this
  omega

/-- On a non-empty all-digit string whose value fits in `int`, `stoi`
returns exactly the value of the digits. -/
theorem stoi_digits (ds : List Char) (h1 : ds ≠ [])
    (h2 : ∀ c ∈ ds, isDigit c = true)
    (h3 : (natFromDigits ds : Int) ≤ 2 ^ 31 - 1) :
    stoi ds = some ((natFromDigits ds : Int)) := by
  have hds : ds.dropWhile isSpace = ds :=
    dropWhile_eq_self isSpace ds (fun x hx => isDigit_not_space (h2 x hx))
  rcases ds with _ | ⟨c, r⟩
  · exact absurd rfl h1
  have hcd : isDigit c = true := h2 c (by simp)
  rw [stoi_eq (c :: r) c r hds]
  rw [isDigit_ne_minus hcd, isDigit_ne_plus hcd]
  simp only [Bool.false_eq_true, if_false]
  simp only [stoiCore]
  rw [takeWhile_eq_self isDigit (c :: r) h2]
  rw [if_neg h1]
  have hnn : (0 : Int) ≤ (natFromDigits (c :: r) : Int) := Int.natCast_nonneg _
  rw [if_neg (by omega), one_mul]

/-- Decoding an encoded entry name (with the leading slash restored)
recovers the index and the base filename, provided the index fits in
`int`. Only the first underscore separates, so the base name may itself
contain underscores. -/
theorem parse_encode (i : Nat) (name : List Char) (h : i ≤ 2 ^ 31 - 1) :
    parse_split_path ('/' :: encode i name) = some ((i : Int), name) := by
  have hdig := toDecimal_digits i
  have hne : ∀ c ∈ toDecimal i, (c != '_') = true :=
    fun c hc => isDigit_ne_underscore (hdig c hc)
  unfold encode
  rw [parse_split_path_cons]
  rw [dropWhile_append_cons _ '_' name (toDecimal i) hne (by decide)]
  rw [takeWhile_append_cons _ '_' name (toDecimal i) hne (by decide)]
  rw [stoi_digits (toDecimal i) (toDecimal_ne_nil i) hdig
    (by rw [natFromDigits_toDecimal]; omega)]
  rw [natFromDigits_toDecimal]

/-! Claim theorems. -/

/-- C1: for a valid split index the returned size should be
`min(split_size, source_size - index*split_size)` and the split sizes
should sum to `source_size`. The code computes the comparison bound
`(split_num + 1) * SPLIT_SIZE` in 32-bit `int`; at `source_size`
2150000000 (a 2.15 GB file, `split_count` 22) the valid index 21 gets
size `SPLIT_SIZE` = 100048576 instead of the remaining 48979904 bytes, so
the claimed formula and the sum property fail on the code. -/
theorem c1_getattr_size_wrong_at_valid_index :
    specSplitCount 2150000000 = 22 ∧
    get_attr ['/', '2', '1', '_', 'f'] 2150000000 =
      .ok ⟨S_IFREG + 0o444, 1, SPLIT_SIZE⟩ ∧
    min SPLIT_SIZE (2150000000 - 21 * SPLIT_SIZE) = 48979904 ∧
    SPLIT_SIZE ≠ (48979904 : Int) :=
  ⟨by decide, rfl, by decide, by decide⟩

/-- C2 counterexample: at split index 22 the product `22 * SPLIT_SIZE`
wraps to a negative `int`, so `read_file` fails with `EINVAL` while a
direct read of the source at the mathematical absolute offset
`22 * SPLIT_SIZE = 2201068672` returns one byte; the claimed round-trip
fails for that index. -/
theorem c2_counterexample :
    read_file (fun _ => 7) 4294967296 22 0 1 = .error EINVAL ∧
    readPrim (fun _ => 7) 4294967296 2201068672 1 = [7] ∧
    (22 : Int) * SPLIT_SIZE = 2201068672 :=
  ⟨rfl, rfl, by decide⟩

/-- C2 amended: for split indices `0 ≤ k ≤ 21` (no 32-bit overflow in
`split_num * SPLIT_SIZE`) and any non-negative in-split offset, `read_file`
returns exactly the bytes a direct positioned read of the source file at
absolute offset `k * SPLIT_SIZE + o` returns, for every capacity and
every source content and size. -/
theorem c2_read_matches_direct_source_read (f : Nat → Nat) (srcSize k o : Int)
    (L : Nat) (hk0 : 0 ≤ k) (hk : k ≤ 21) (ho : 0 ≤ o) :
    read_file f srcSize k o L = .ok (readPrim f srcSize (k * SPLIT_SIZE + o).toNat L) := by
  have hS : (0 : Int) ≤ SPLIT_SIZE := by decide
  have hb : k * SPLIT_SIZE ≤ 21 * SPLIT_SIZE := mul_le_mul_of_nonneg_right hk hS
  have h0 : 0 ≤ k * SPLIT_SIZE := mul_nonneg hk0 hS
  have hw : wrap32 (k * SPLIT_SIZE) = k * SPLIT_SIZE := by
    apply wrap32_eq_self h0
    have h21 : (21 : Int) * SPLIT_SIZE < 2 ^ 31 := by decide
    omega
  simp only [read_file]
  rw [hw, if_neg (by omega)]

/-- C2 witness: reading split 0 at offset 2 with capacity 4 agrees with
the direct source read at absolute offset 2. -/
theorem c2_witness :
    read_file (fun n => n) 25 0 2 4 =
      .ok (readPrim (fun n => n) 25 ((0 : Int) * SPLIT_SIZE + 2).toNat 4) :=
  c2_read_matches_direct_source_read (fun n => n) 25 0 2 4 (by decide) (by decide)
    (by decide)

/-- C3 counterexample: the claim quantifies over every index `i ≥ 21`, but
at `i = 21` the Read-side intermediate product `21 * SPLIT_SIZE` =
2101020096 does not exceed `2^31 - 1`, wrapping is the identity on it, and
the read happens at exactly the mathematical offset (shown on a source one
byte longer than `21 * SPLIT_SIZE`). -/
theorem c3_counterexample :
    wrap32 (21 * SPLIT_SIZE) = 21 * SPLIT_SIZE ∧
    ¬ (2 ^ 31 - 1 < (21 : Int) * SPLIT_SIZE) ∧
    read_file (fun _ => 7) 2101020097 21 0 1 = .ok [7] ∧
    readPrim (fun _ => 7) 2101020097 ((21 : Int) * SPLIT_SIZE + 0).toNat 1 = [7] :=
  ⟨by decide, by decide, rfl, rfl⟩

/-- C3 amended: for every `i ≥ 21` the GetAttributes-side product
`(i+1) * SPLIT_SIZE` exceeds `2^31 - 1` and there is a source size above
2.1 GB where the computed split size differs from
`min(split_size, source_size - i*split_size)`; for every `i ≥ 22` the
Read-side product also overflows and the computed absolute offset differs
from `i * SPLIT_SIZE + o` for every in-split offset `o`. -/
theorem c3_int_overflow (i : Int) (hi : 21 ≤ i) :
    (2 ^ 31 - 1 < (i + 1) * SPLIT_SIZE ∧
      ∃ srcSize : Int, 2100000000 < srcSize ∧
        getAttrSize i srcSize ≠ min SPLIT_SIZE (srcSize - i * SPLIT_SIZE)) ∧
    (22 ≤ i → ∀ o : Int, wrap32 (i * SPLIT_SIZE) + o ≠ i * SPLIT_SIZE + o) := by
  have hS : (0 : Int) < SPLIT_SIZE := by decide
  have hmul : (i + 1) * SPLIT_SIZE = i * SPLIT_SIZE + SPLIT_SIZE := by ring
  have h22 : (22 : Int) * SPLIT_SIZE ≤ (i + 1) * SPLIT_SIZE :=
    mul_le_mul_of_nonneg_right (by omega) (le_of_lt hS)
  have h22v : (2 : Int) ^ 31 - 1 < 22 * SPLIT_SIZE := by decide
  constructor
  · constructor
    · omega
    · refine ⟨i * SPLIT_SIZE + 1, ?_, ?_⟩
      · have h21 : (21 : Int) * SPLIT_SIZE ≤ i * SPLIT_SIZE :=
          mul_le_mul_of_nonneg_right hi (le_of_lt hS)
        have h21v : (2100000000 : Int) < 21 * SPLIT_SIZE + 1 := by decide
        omega
      · have hcond : wrap32 ((i + 1) * SPLIT_SIZE) < i * SPLIT_SIZE + 1 := by
          rcases le_or_lt 22 i with h22i | h22i
          · have hip : (22 : Int) * SPLIT_SIZE ≤ i * SPLIT_SIZE :=
              mul_le_mul_of_nonneg_right h22i (le_of_lt hS)
            have hup := wrap32_upper ((i + 1) * SPLIT_SIZE)
            omega
          · have hi21 : i = 21 := by omega
            subst hi21
            decide
        unfold getAttrSize
        rw [if_pos (by omega)]
        have hone : i * SPLIT_SIZE + 1 - i * SPLIT_SIZE = 1 := by ring
        rw [hone]
        have hm : min SPLIT_SIZE (1 : Int) = 1 := by decide
        rw [hm]
        decide
  · intro h22i o
    have hip : (22 : Int) * SPLIT_SIZE ≤ i * SPLIT_SIZE :=
      mul_le_mul_of_nonneg_right h22i (le_of_lt hS)
    have hup := wrap32_upper (i * SPLIT_SIZE)
    omega

/-- C3 witness: the overflow theorem applied at index 21. -/
theorem c3_witness : 2 ^ 31 - 1 < ((21 : Int) + 1) * SPLIT_SIZE :=
  (c3_int_overflow 21 (by decide)).1.1

/-- C4 counterexample: the claim says a negative numeric prefix fails to
decode, but `std::stoi` accepts an optional sign, so the path made of a
slash followed by `-1_f` decodes successfully to index -1. -/
theorem c4_counterexample :
    parse_split_path ['/', '-', '1', '_', 'f'] = some ((-1 : Int), ['f']) := by
  decide

/-- C4 amended: decode succeeds exactly when the remainder contains an
underscore and `std::stoi` accepts the prefix before the first underscore
(optional whitespace and sign, at least one leading digit, value within
the `int` range, trailing non-digits ignored). So `"/abc_file"`,
`"/5noUnderscore"`, an empty prefix and an overflowing prefix all fail,
and `"/5_"` succeeds with the empty base name — but a prefix with
trailing junk such as `"/5x_f"` also succeeds, with index 5. -/
theorem c4_decode_examples :
    parse_split_path ['/', 'a', 'b', 'c', '_', 'f', 'i', 'l', 'e'] = none ∧
    parse_split_path ['/', '5', 'n', 'o', 'U', 'n', 'd', 'e', 'r', 's', 'c',
      'o', 'r', 'e'] = none ∧
    parse_split_path ['/', '_', 'f'] = none ∧
    parse_split_path ['/', '9', '9', '9', '9', '9', '9', '9', '9', '9', '9',
      '9', '_', 'f'] = none ∧
    parse_split_path ['/', '5', '_'] = some ((5 : Int), []) ∧
    parse_split_path ['/', '5', 'x', '_', 'f'] = some ((5 : Int), ['f']) := by
  refine ⟨by decide, by decide, by decide, by decide, by decide, by decide⟩

/-- C5: decode is the left inverse of encode — decoding the encoded entry
`"<i>_<name>"` (with the leading slash restored) yields exactly
`(i, name)`, including for base names containing underscores, for every
index expressible in the C `int` type. -/
theorem c5_decode_left_inverse_of_encode (i : Nat) (name : List Char)
    (h : i ≤ 2 ^ 31 - 1) :
    parse_split_path ('/' :: encode i name) = some ((i : Int), name) :=
  parse_encode i name h

/-- C5 witness: index 3 with a base name containing underscores. -/
theorem c5_witness :
    parse_split_path
        ('/' :: encode 3 ['m', 'y', '_', 'v', 'i', 'd', 'e', 'o', '.', 'm', 'p', '4']) =
      some ((3 : Int), ['m', 'y', '_', 'v', 'i', 'd', 'e', 'o', '.', 'm', 'p', '4']) :=
  c5_decode_left_inverse_of_encode 3
    ['m', 'y', '_', 'v', 'i', 'd', 'e', 'o', '.', 'm', 'p', '4'] (by decide)

/-- C7 counterexample: the claim says a read at an offset at or beyond the
split's computed length returns zero bytes; but for a non-last split the
code reads past the split boundary into the next split's bytes. On a
source of `SPLIT_SIZE + 1` bytes, split 0 has computed length
`SPLIT_SIZE`, yet reading split 0 at offset `SPLIT_SIZE` returns one
byte. -/
theorem c7_counterexample :
    getAttrSize 0 100048577 = SPLIT_SIZE ∧
    read_file (fun _ => 9) 100048577 0 SPLIT_SIZE 1 = .ok [9] :=
  ⟨by decide, rfl⟩

/-- C7 amended: for split indices `0 ≤ k ≤ 21` and non-negative in-split
offset, a read whose absolute offset `k * SPLIT_SIZE + o` lies at or
beyond the end of the source returns zero bytes and no error. -/
theorem c7_read_at_or_past_eof_returns_zero_bytes (f : Nat → Nat)
    (srcSize k o : Int) (cap : Nat) (hk0 : 0 ≤ k) (hk : k ≤ 21) (ho : 0 ≤ o)
    (hs : srcSize ≤ k * SPLIT_SIZE + o) :
    read_file f srcSize k o cap = .ok [] := by
  have hS : (0 : Int) ≤ SPLIT_SIZE := by decide
  have hb : k * SPLIT_SIZE ≤ 21 * SPLIT_SIZE := mul_le_mul_of_nonneg_right hk hS
  have h0 : 0 ≤ k * SPLIT_SIZE := mul_nonneg hk0 hS
  have hw : wrap32 (k * SPLIT_SIZE) = k * SPLIT_SIZE := by
    apply wrap32_eq_self h0
    have h21 : (21 : Int) * SPLIT_SIZE < 2 ^ 31 := by decide
    omega
  simp only [read_file]
  rw [hw, if_neg (by omega)]
  unfold readPrim
  have hz : srcSize.toNat - (k * SPLIT_SIZE + o).toNat = 0 := by
    have := Int.toNat_le_toNat hs
    omega
  rw [hz]
  simp

/-- C7 witness: reading split 0 of a 3-byte source at offset 5 returns
zero bytes. -/
theorem c7_witness : read_file (fun n => n) 3 0 5 7 = .ok [] :=
  c7_read_at_or_past_eof_returns_zero_bytes (fun n => n) 3 0 5 7 (by decide)
    (by decide) (by decide) (by decide)

/-- C8: `open_file` returns NotFound exactly when the path fails to
decode; on a decodable path it returns PermissionDenied exactly when the
access-mode bits (`flags & O_ACCMODE`) are not read-only and Granted
(zero) exactly otherwise. It takes no source-file argument at all, so it
consults neither the source size nor the split count. -/
theorem c8_open_file_contract (path : List Char) (flags : Nat) :
    (open_file path flags = -ENOENT ↔ parse_split_path path = none) ∧
    (open_file path flags = -EACCES ↔
      parse_split_path path ≠ none ∧ Nat.land flags 3 ≠ 0) ∧
    (open_file path flags = 0 ↔
      parse_split_path path ≠ none ∧ Nat.land flags 3 = 0) := by
  cases hp : parse_split_path path with
  | none => simp [open_file, hp, ENOENT, EACCES]
  | some a =>
    by_cases hf : Nat.land flags 3 = 0
    · simp [open_file, hp, hf, ENOENT, EACCES]
    · simp [open_file, hp, hf, ENOENT, EACCES]

/-- C8 witness: opening a valid split path with a write-intent access mode
(`O_WRONLY` = 1) is denied with `EACCES`. -/
theorem c8_witness : open_file ['/', '0', '_', 'f'] 1 = -EACCES :=
  ((c8_open_file_contract ['/', '0', '_', 'f'] 1).2.1).mpr
    ⟨by decide, by decide⟩

/-- C9 counterexample: the claim says a decoded index at or beyond
`split_count` yields a non-positive computed size; but for index 21 on a
5-byte source (split count 1) the wrapped comparison bound is negative, so
the code returns the positive size `SPLIT_SIZE`. -/
theorem c9_counterexample :
    specSplitCount 5 = 1 ∧
    get_attr ['/', '2', '1', '_', 'f'] 5 = .ok ⟨S_IFREG + 0o444, 1, SPLIT_SIZE⟩ ∧
    (0 : Int) < SPLIT_SIZE :=
  ⟨by decide, rfl, by decide⟩

/-- C9 amended: on a syntactically valid split path, `get_attr` never
returns NotFound; when the decoded index is at or beyond the split count
and small enough that `(index+1) * SPLIT_SIZE` does not overflow
(`index ≤ 20`), it returns regular-file attributes whose size is the
non-positive value `source_size - index * split_size`. -/
theorem c9_getattr_beyond_split_count (path : List Char) (i : Int)
    (base : List Char) (srcSize : Int)
    (hp : parse_split_path path = some (i, base)) (h0 : 0 ≤ srcSize)
    (hcount : specSplitCount srcSize ≤ i) (hi : i ≤ 20) :
    get_attr path srcSize = .ok ⟨S_IFREG + 0o444, 1, srcSize - i * SPLIT_SIZE⟩ ∧
    srcSize - i * SPLIT_SIZE ≤ 0 := by
  have hS : (0 : Int) < SPLIT_SIZE := by decide
  have hmul : (i + 1) * SPLIT_SIZE = i * SPLIT_SIZE + SPLIT_SIZE := by ring
  have hq0 : 0 ≤ (srcSize + SPLIT_SIZE - 1) / SPLIT_SIZE :=
    Int.ediv_nonneg (by omega) (le_of_lt hS)
  have hcnonneg : 0 ≤ specSplitCount srcSize := by
    unfold specSplitCount MAX_SPLITS
    omega
  have hi0 : 0 ≤ i := le_trans hcnonneg hcount
  have hqi : (srcSize + SPLIT_SIZE - 1) / SPLIT_SIZE ≤ i := by
    unfold specSplitCount MAX_SPLITS at hcount
    rcases le_total ((srcSize + SPLIT_SIZE - 1) / SPLIT_SIZE) 1000 with hq | hq
    · rw [min_eq_left hq] at hcount
      exact hcount
    · rw [min_eq_right hq] at hcount
      omega
  have hsle : srcSize ≤ i * SPLIT_SIZE := by
    have hlt : srcSize + SPLIT_SIZE - 1 < (i + 1) * SPLIT_SIZE :=
      (Int.ediv_lt_iff_lt_mul hS).mp (by omega)
    omega
  have hga : getAttrSize i srcSize = srcSize - i * SPLIT_SIZE := by
    unfold getAttrSize
    have hw1 : wrap32 ((i + 1) * SPLIT_SIZE) = (i + 1) * SPLIT_SIZE := by
      apply wrap32_eq_self (mul_nonneg (by omega) (le_of_lt hS))
      have hb : (i + 1) * SPLIT_SIZE ≤ 21 * SPLIT_SIZE :=
        mul_le_mul_of_nonneg_right (by omega) (le_of_lt hS)
      have h21 : (21 : Int) * SPLIT_SIZE < 2 ^ 31 := by decide
      omega
    have hw2 : wrap32 (i * SPLIT_SIZE) = i * SPLIT_SIZE := by
      apply wrap32_eq_self (mul_nonneg hi0 (le_of_lt hS))
      have hb : i * SPLIT_SIZE ≤ 20 * SPLIT_SIZE :=
        mul_le_mul_of_nonneg_right hi (le_of_lt hS)
      have h20 : (20 : Int) * SPLIT_SIZE < 2 ^ 31 := by decide
      omega
    rw [hw1, if_neg (by omega), hw2]
  have hslash : path ≠ ['/'] := by
    intro he
    rw [he, show parse_split_path ['/'] = none from rfl] at hp
    exact Option.noConfusion hp
  have hres : get_attr path srcSize =
      .ok ⟨S_IFREG + 0o444, 1, getAttrSize i srcSize⟩ := by
    unfold get_attr
    rw [if_neg hslash, hp]
  constructor
  · rw [hres, hga]
  · omega

/-- C9 witness: index 3 on a 5-byte source (split count 1). -/
theorem c9_witness :
    get_attr ['/', '3', '_', 'f'] 5 = .ok ⟨S_IFREG + 0o444, 1, 5 - 3 * SPLIT_SIZE⟩ ∧
    (5 : Int) - 3 * SPLIT_SIZE ≤ 0 :=
  c9_getattr_beyond_split_count ['/', '3', '_', 'f'] 3 ['f'] 5 (by decide)
    (by decide) (by decide) (by decide)

/-- C6 counterexample: the claim says the listing always has exactly
`min(ceil(source_size/split_size), max_splits)` entries, but `read_dir`
narrows the 64-bit split count to a 32-bit `int`. For a source of size
`2^31 * SPLIT_SIZE` (a huge sparse file) the true count wraps to
`-2^31`, the loop runs zero times, and the listing has no split entries
although the claimed count is `max_splits` = 1000. -/
theorem c6_counterexample :
    specSplitCount (2147483648 * SPLIT_SIZE) = 1000 ∧
    read_dir ['/'] (2147483648 * SPLIT_SIZE) ['f'] = .ok [['.'], ['.', '.']] :=
  ⟨by decide, rfl⟩

/-- C6 amended: as long as the true split count fits in 32-bit `int`,
listing the root yields `.` and `..` first and then exactly
`min(ceil(source_size/split_size), max_splits)` encoded names in
ascending index order (the k-th entry decodes to index k) with no
duplicates; a zero-size source produces no split entries, and every
non-root path is NotFound. -/
theorem c6_read_dir_listing (srcSize : Int) (base : List Char) (h0 : 0 ≤ srcSize)
    (hfit : (srcSize + SPLIT_SIZE - 1) / SPLIT_SIZE ≤ 2 ^ 31 - 1) :
    read_dir ['/'] srcSize base = .ok (['.'] :: ['.', '.'] :: splitNames srcSize base) ∧
    (splitNames srcSize base).length = (specSplitCount srcSize).toNat ∧
    (splitNames srcSize base).Nodup ∧
    (∀ k : Nat, k < (specSplitCount srcSize).toNat →
      (splitNames srcSize base)[k]? = some (encode k base) ∧
      parse_split_path ('/' :: encode k base) = some ((k : Int), base)) ∧
    (srcSize = 0 → splitNames srcSize base = []) ∧
    (∀ p : List Char, p ≠ ['/'] → read_dir p srcSize base = .error ENOENT) := by
  have hS : (0 : Int) < SPLIT_SIZE := by decide
  have hq0 : 0 ≤ (srcSize + SPLIT_SIZE - 1) / SPLIT_SIZE :=
    Int.ediv_nonneg (by omega) (le_of_lt hS)
  have hwrap : num_splits_int srcSize = (srcSize + SPLIT_SIZE - 1) / SPLIT_SIZE := by
    unfold num_splits_int
    exact wrap32_eq_self hq0 (by omega)
  have hmin : min (num_splits_int srcSize) MAX_SPLITS = specSplitCount srcSize := by
    rw [hwrap]
    rfl
  have hinj : Function.Injective (fun i : Nat => encode i base) := by
    intro a b hab
    simp only [encode] at hab
    have ha := takeWhile_append_cons (fun x => x != '_') '_' base (toDecimal a)
      (fun c hc => isDigit_ne_underscore (toDecimal_digits a c hc)) (by decide)
    have hb := takeWhile_append_cons (fun x => x != '_') '_' base (toDecimal b)
      (fun c hc => isDigit_ne_underscore (toDecimal_digits b c hc)) (by decide)
    exact toDecimal_injective (by rw [← ha, ← hb, hab])
  refine ⟨?_, ?_, ?_, ?_, ?_, ?_⟩
  · unfold read_dir
    rw [if_pos rfl]
  · unfold splitNames
    rw [hmin]
    simp
  · unfold splitNames
    exact (List.nodup_range _).map hinj
  · intro k hk
    refine ⟨?_, ?_⟩
    · unfold splitNames
      rw [hmin]
      rw [List.getElem?_map, List.getElem?_range hk]
      rfl
    · apply parse_encode
      have hle : specSplitCount srcSize ≤ MAX_SPLITS := min_le_right _ _
      unfold MAX_SPLITS at hle
      omega
  · intro hz
    subst hz
    unfold splitNames
    rw [show (min (num_splits_int 0) MAX_SPLITS).toNat = 0 from by decide]
    rfl
  · intro p hp
    unfold read_dir
    rw [if_neg hp]

/-- C6 witness: a 25-byte source yields a listing whose split-entry count
matches the specification's split count. -/
theorem c6_witness :
    (splitNames 25 ['f']).length = (specSplitCount 25).toNat :=
  (c6_read_dir_listing 25 ['f'] (by decide) (by decide)).2.1

/-! Helper lemmas for comparing the two path decoders. -/

/-- Reduction of `scanfDecode` once the whitespace-stripped remainder is
known. -/
theorem scanfDecode_eq (rest : List Char) (c1 : Char) (r2 : List Char)
    (h : rest.dropWhile isSpace = c1 :: r2) :
    scanfDecode ('/' :: rest) =
      (let sign : Int := if c1 == '-' then -1 else 1
       let body := if c1 == '-' || c1 == '+' then r2 else c1 :: r2
       if body.takeWhile isDigit = [] then none
       else scanfTail sign (body.takeWhile isDigit) (body.dropWhile isDigit)) := by
  simp only [scanfDecode]
  rw [if_pos (show (('/' : Char) == '/') = true from rfl), h]

/-- Reduction of `parse_split_path` once the underscore split is known. -/
theorem parse_split_path_eq (p : List Char) (base : List Char)
    (hdrop : p.dropWhile (fun x => x != '_') = '_' :: base) :
    parse_split_path ('/' :: p) =
      match stoi (p.takeWhile (fun x => x != '_')) with
      | some v => some (v, base)
      | none => none := by
  rw [parse_split_path_cons, hdrop]

/-- When the path remainder splits as underscore-free prefix, underscore,
suffix, and `stoi` accepts the prefix, `parse_split_path` succeeds. -/
theorem parse_split_path_final (rest xs r4 : List Char) (v : Int)
    (hsh : rest = xs ++ '_' :: r4)
    (hpre : ∀ x ∈ xs, (x != '_') = true)
    (hstoi : stoi xs = some v) :
    parse_split_path ('/' :: rest) = some (v, r4) := by
  have hdropu : rest.dropWhile (fun x => x != '_') = '_' :: r4 := by
    rw [hsh]
    exact dropWhile_append_cons _ '_' r4 xs hpre (by decide)
  have htakeu : rest.takeWhile (fun x => x != '_') = xs := by
    rw [hsh]
    exact takeWhile_append_cons _ '_' r4 xs hpre (by decide)
  rw [parse_split_path_eq rest r4 hdropu, htakeu, hstoi]

/-- Value of `stoi` on whitespace, a minus sign, then digits. -/
theorem stoi_ws_minus_digits (ws ds : List Char)
    (hws : ∀ x ∈ ws, isSpace x = true)
    (hds : ds ≠ []) (hdig : ∀ x ∈ ds, isDigit x = true)
    (hv : ¬ (-1 * (natFromDigits ds : Int) < -(2 ^ 31) ∨
      2 ^ 31 - 1 < -1 * (natFromDigits ds : Int))) :
    stoi (ws ++ '-' :: ds) = some (-1 * (natFromDigits ds : Int)) := by
  have hd : (ws ++ '-' :: ds).dropWhile isSpace = '-' :: ds :=
    dropWhile_append_cons isSpace '-' ds ws hws (by decide)
  rw [stoi_eq _ '-' ds hd]
  rw [if_pos (show (('-' : Char) == '-') = true from rfl)]
  simp only [stoiCore]
  rw [takeWhile_eq_self isDigit ds hdig, if_neg hds, if_neg hv]

/-- Value of `stoi` on whitespace, a plus sign, then digits. -/
theorem stoi_ws_plus_digits (ws ds : List Char)
    (hws : ∀ x ∈ ws, isSpace x = true)
    (hds : ds ≠ []) (hdig : ∀ x ∈ ds, isDigit x = true)
    (hv : ¬ (1 * (natFromDigits ds : Int) < -(2 ^ 31) ∨
      2 ^ 31 - 1 < 1 * (natFromDigits ds : Int))) :
    stoi (ws ++ '+' :: ds) = some (1 * (natFromDigits ds : Int)) := by
  have hd : (ws ++ '+' :: ds).dropWhile isSpace = '+' :: ds :=
    dropWhile_append_cons isSpace '+' ds ws hws (by decide)
  rw [stoi_eq _ '+' ds hd]
  rw [if_neg (show ¬ ((('+' : Char) == '-') = true) from by decide)]
  rw [if_pos (show (('+' : Char) == '+') = true from rfl)]
  simp only [stoiCore]
  rw [takeWhile_eq_self isDigit ds hdig, if_neg hds, if_neg hv]

/-- Value of `stoi` on whitespace followed directly by digits. -/
theorem stoi_ws_digits (ws ds : List Char)
    (hws : ∀ x ∈ ws, isSpace x = true)
    (hds : ds ≠ []) (hdig : ∀ x ∈ ds, isDigit x = true)
    (hv : ¬ (1 * (natFromDigits ds : Int) < -(2 ^ 31) ∨
      2 ^ 31 - 1 < 1 * (natFromDigits ds : Int))) :
    stoi (ws ++ ds) = some (1 * (natFromDigits ds : Int)) := by
  rcases ds with _ | ⟨c, t⟩
  · exact absurd rfl hds
  have hcd : isDigit c = true := hdig c (by simp)
  have hd : (ws ++ c :: t).dropWhile isSpace = c :: t :=
    dropWhile_append_cons isSpace c t ws hws (isDigit_not_space hcd)
  rw [stoi_eq _ c t hd]
  rw [isDigit_ne_minus hcd, isDigit_ne_plus hcd]
  simp only [Bool.false_eq_true, if_false]
  simp only [stoiCore]
  rw [takeWhile_eq_self isDigit (c :: t) hdig, if_neg hds, if_neg hv]

/-- C10 counterexample: the two decoders are not the same partial
function. On the path made of a slash, the digit 5 and a trailing
underscore, the sscanf format fails (its `%[^\n]` must match at least one
character) while `parse_split_path` succeeds with index 5 and the empty
base name. -/
theorem c10_counterexample :
    scanfDecode ['/', '5', '_'] = none ∧
    parse_split_path ['/', '5', '_'] = some ((5 : Int), []) :=
  ⟨by decide, by decide⟩

/-- C10 amended: the sscanf-based decoder refines the stoi-based one —
whenever the sscanf parse succeeds with a value inside the `int` range on
a path without newline characters, `parse_split_path` succeeds with the
same index and base name. (The converse fails, e.g. on a trailing-empty
filename or on digits followed by junk before the underscore.) -/
theorem c10_scanf_refines_stoi_parse (path : List Char) (v : Int)
    (name : List Char) (h : scanfDecode path = some (v, name))
    (hlo : -(2 ^ 31) ≤ v) (hhi : v ≤ 2 ^ 31 - 1) (hnl : '\n' ∉ path) :
    parse_split_path path = some (v, name) := by
  cases path with
  | nil => exact absurd h (by simp [scanfDecode])
  | cons c rest =>
    by_cases hc : c = '/'
    case neg =>
      have hnone : scanfDecode (c :: rest) = none := by
        simp only [scanfDecode]
        rw [if_neg (by simp [hc])]
      rw [hnone] at h
      exact Option.noConfusion h
    case pos =>
      subst hc
      cases hr : rest.dropWhile isSpace with
      | nil =>
        have hnone : scanfDecode ('/' :: rest) = none := by
          simp only [scanfDecode]
          rw [if_pos (show (('/' : Char) == '/') = true from rfl), hr]
        rw [hnone] at h
        exact Option.noConfusion h
      | cons c1 r2 =>
        rw [scanfDecode_eq rest c1 r2 hr] at h
        have hws : ∀ x ∈ rest.takeWhile isSpace, isSpace x = true :=
          fun x hx => List.mem_takeWhile_imp hx
        have hrest : rest = rest.takeWhile isSpace ++ c1 :: r2 := by
          conv_lhs => rw [← List.takeWhile_append_dropWhile isSpace rest]
          rw [hr]
        by_cases h1 : c1 = '-'
        · subst h1
          simp only [show (('-' : Char) == '-') = true from rfl,
            show (('-' : Char) == '+') = false from rfl, Bool.true_or,
            eq_self_iff_true, if_true] at h
          by_cases hds : r2.takeWhile isDigit = []
          · rw [if_pos hds] at h
            exact Option.noConfusion h
          · rw [if_neg hds] at h
            cases hdrop : r2.dropWhile isDigit with
            | nil =>
              rw [hdrop] at h
              exact absurd h (by simp [scanfTail])
            | cons c2 r4 =>
              rw [hdrop] at h
              simp only [scanfTail] at h
              by_cases hc2 : c2 = '_'
              · subst hc2
                rw [if_pos (show (('_' : Char) == '_') = true from rfl)] at h
                by_cases hname : r4.takeWhile (fun x => x != '\n') = []
                · rw [if_pos hname] at h
                  exact Option.noConfusion h
                · rw [if_neg hname] at h
                  simp only [Option.some.injEq, Prod.mk.injEq] at h
                  obtain ⟨hv, hn⟩ := h
                  have hdig : ∀ x ∈ r2.takeWhile isDigit, isDigit x = true :=
                    fun x hx => List.mem_takeWhile_imp hx
                  have hr2s : r2 = r2.takeWhile isDigit ++ '_' :: r4 := by
                    conv_lhs => rw [← List.takeWhile_append_dropWhile isDigit r2]
                    rw [hdrop]
                  have hsh : rest =
                      (rest.takeWhile isSpace ++ '-' :: r2.takeWhile isDigit) ++
                        '_' :: r4 := by
                    rw [List.append_assoc, List.cons_append, ← hr2s]
                    exact hrest
                  have hpre : ∀ x ∈ rest.takeWhile isSpace ++
                      '-' :: r2.takeWhile isDigit, (x != '_') = true := by
                    intro x hx
                    rcases List.mem_append.mp hx with hx | hx
                    · exact isSpace_ne_underscore (hws x hx)
                    · rcases List.mem_cons.mp hx with hx | hx
                      · subst hx; decide
                      · exact isDigit_ne_underscore (hdig x hx)
                  have hnl4 : ∀ x ∈ r4, (x != '\n') = true := by
                    intro x hx
                    refine bne_iff_ne.mpr ?_
                    intro he
                    subst he
                    apply hnl
                    have hmem : ('\n' : Char) ∈
                        (rest.takeWhile isSpace ++ '-' :: r2.takeWhile isDigit) ++
                          '_' :: r4 :=
                      List.mem_append.mpr (Or.inr (List.mem_cons_of_mem _ hx))
                    rw [← hsh] at hmem
                    exact List.mem_cons_of_mem _ hmem
                  have hstoi := stoi_ws_minus_digits (rest.takeWhile isSpace)
                    (r2.takeWhile isDigit) hws hds hdig (by rw [hv]; omega)
                  rw [parse_split_path_final rest _ r4
                    (-1 * (natFromDigits (r2.takeWhile isDigit) : Int)) hsh hpre hstoi]
                  rw [hv]
                  have hr4name : name = r4 := by
                    rw [← hn, takeWhile_eq_self _ r4 hnl4]
                  rw [hr4name]
              · rw [if_neg (by simp [hc2])] at h
                exact Option.noConfusion h
        · by_cases h2 : c1 = '+'
          · subst h2
            simp only [show (('+' : Char) == '-') = false from rfl,
              show (('+' : Char) == '+') = true from rfl, Bool.false_or,
              Bool.false_eq_true, if_false, eq_self_iff_true, if_true] at h
            by_cases hds : r2.takeWhile isDigit = []
            · rw [if_pos hds] at h
              exact Option.noConfusion h
            · rw [if_neg hds] at h
              cases hdrop : r2.dropWhile isDigit with
              | nil =>
                rw [hdrop] at h
                exact absurd h (by simp [scanfTail])
              | cons c2 r4 =>
                rw [hdrop] at h
                simp only [scanfTail] at h
                by_cases hc2 : c2 = '_'
                · subst hc2
                  rw [if_pos (show (('_' : Char) == '_') = true from rfl)] at h
                  by_cases hname : r4.takeWhile (fun x => x != '\n') = []
                  · rw [if_pos hname] at h
                    exact Option.noConfusion h
                  · rw [if_neg hname] at h
                    simp only [Option.some.injEq, Prod.mk.injEq] at h
                    obtain ⟨hv, hn⟩ := h
                    have hdig : ∀ x ∈ r2.takeWhile isDigit, isDigit x = true :=
                      fun x hx => List.mem_takeWhile_imp hx
                    have hr2s : r2 = r2.takeWhile isDigit ++ '_' :: r4 := by
                      conv_lhs => rw [← List.takeWhile_append_dropWhile isDigit r2]
                      rw [hdrop]
                    have hsh : rest =
                        (rest.takeWhile isSpace ++ '+' :: r2.takeWhile isDigit) ++
                          '_' :: r4 := by
                      rw [List.append_assoc, List.cons_append, ← hr2s]
                      exact hrest
                    have hpre : ∀ x ∈ rest.takeWhile isSpace ++
                        '+' :: r2.takeWhile isDigit, (x != '_') = true := by
                      intro x hx
                      rcases List.mem_append.mp hx with hx | hx
                      · exact isSpace_ne_underscore (hws x hx)
                      · rcases List.mem_cons.mp hx with hx | hx
                        · subst hx; decide
                        · exact isDigit_ne_underscore (hdig x hx)
                    have hnl4 : ∀ x ∈ r4, (x != '\n') = true := by
                      intro x hx
                      refine bne_iff_ne.mpr ?_
                      intro he
                      subst he
                      apply hnl
                      have hmem : ('\n' : Char) ∈
                          (rest.takeWhile isSpace ++ '+' :: r2.takeWhile isDigit) ++
                            '_' :: r4 :=
                        List.mem_append.mpr (Or.inr (List.mem_cons_of_mem _ hx))
                      rw [← hsh] at hmem
                      exact List.mem_cons_of_mem _ hmem
                    have hstoi := stoi_ws_plus_digits (rest.takeWhile isSpace)
                      (r2.takeWhile isDigit) hws hds hdig (by rw [hv]; omega)
                    rw [parse_split_path_final rest _ r4
                      (1 * (natFromDigits (r2.takeWhile isDigit) : Int)) hsh hpre hstoi]
                    rw [hv]
                    have hr4name : name = r4 := by
                      rw [← hn, takeWhile_eq_self _ r4 hnl4]
                    rw [hr4name]
                · rw [if_neg (by simp [hc2])] at h
                  exact Option.noConfusion h
          · simp only [beq_eq_false_iff_ne.mpr h1, beq_eq_false_iff_ne.mpr h2,
              Bool.or_false, Bool.false_eq_true, if_false] at h
            by_cases hds : (c1 :: r2).takeWhile isDigit = []
            · rw [if_pos hds] at h
              exact Option.noConfusion h
            · rw [if_neg hds] at h
              cases hdrop : (c1 :: r2).dropWhile isDigit with
              | nil =>
                rw [hdrop] at h
                exact absurd h (by simp [scanfTail])
              | cons c2 r4 =>
                rw [hdrop] at h
                simp only [scanfTail] at h
                by_cases hc2 : c2 = '_'
                · subst hc2
                  rw [if_pos (show (('_' : Char) == '_') = true from rfl)] at h
                  by_cases hname : r4.takeWhile (fun x => x != '\n') = []
                  · rw [if_pos hname] at h
                    exact Option.noConfusion h
                  · rw [if_neg hname] at h
                    simp only [Option.some.injEq, Prod.mk.injEq] at h
                    obtain ⟨hv, hn⟩ := h
                    have hdig : ∀ x ∈ (c1 :: r2).takeWhile isDigit, isDigit x = true :=
                      fun x hx => List.mem_takeWhile_imp hx
                    have hsplit : c1 :: r2 = (c1 :: r2).takeWhile isDigit ++ '_' :: r4 := by
                      conv_lhs => rw [← List.takeWhile_append_dropWhile isDigit (c1 :: r2)]
                      rw [hdrop]
                    have hsh : rest =
                        (rest.takeWhile isSpace ++ (c1 :: r2).takeWhile isDigit) ++
                          '_' :: r4 := by
                      rw [List.append_assoc, ← hsplit]
                      exact hrest
                    have hpre : ∀ x ∈ rest.takeWhile isSpace ++
                        (c1 :: r2).takeWhile isDigit, (x != '_') = true := by
                      intro x hx
                      rcases List.mem_append.mp hx with hx | hx
                      · exact isSpace_ne_underscore (hws x hx)
                      · exact isDigit_ne_underscore (hdig x hx)
                    have hnl4 : ∀ x ∈ r4, (x != '\n') = true := by
                      intro x hx
                      refine bne_iff_ne.mpr ?_
                      intro he
                      subst he
                      apply hnl
                      have hmem : ('\n' : Char) ∈
                          (rest.takeWhile isSpace ++ (c1 :: r2).takeWhile isDigit) ++
                            '_' :: r4 :=
                        List.mem_append.mpr (Or.inr (List.mem_cons_of_mem _ hx))
                      rw [← hsh] at hmem
                      exact List.mem_cons_of_mem _ hmem
                    have hstoi := stoi_ws_digits (rest.takeWhile isSpace)
                      ((c1 :: r2).takeWhile isDigit) hws hds hdig (by rw [hv]; omega)
                    rw [parse_split_path_final rest _ r4
                      (1 * (natFromDigits ((c1 :: r2).takeWhile isDigit) : Int)) hsh hpre hstoi]
                    rw [hv]
                    have hr4name : name = r4 := by
                      rw [← hn, takeWhile_eq_self _ r4 hnl4]
                    rw [hr4name]
                · rw [if_neg (by simp [hc2])] at h
                  exact Option.noConfusion h

/-- C10 witness: both decoders agree on the path slash, 3, underscore,
`ab`. -/
theorem c10_witness :
    parse_split_path ['/', '3', '_', 'a', 'b'] = some ((3 : Int), ['a', 'b']) :=
  c10_scanf_refines_stoi_parse ['/', '3', '_', 'a', 'b'] 3 ['a', 'b']
    (by decide) (by decide) (by decide) (by decide)
